import Mathlib

/-!
Verification of the OrderBookManager repository.

The repository maintains a local order book per instrument from Bybit
snapshot and delta events, with two interchangeable strategies:

* `orderbook.merge.js` — each side is a dense array of `[price, size]`
  pairs kept sorted toward the best price; deltas are folded in by a
  linear two-pointer merge (`mergeSortedUpdates`).
* `orderbook.Btree.js` — each side is a `bintrees` red-black tree whose
  comparator is the price difference (descending for bids, ascending for
  asks); deltas are applied one level at a time.

Modelling conventions:

* Feed pairs arrive as decimal strings and are converted by `Number(...)`.
  Only the order of prices and the zero-test of sizes are ever used, so we
  model a parsed price as `Int` (any linearly ordered domain the decimal
  prices order-embed into) and a parsed size as `Nat` (sizes on the feed
  are non-negative; the spec's data model states size is a non-negative
  number).  The JS comparator `a[0] - b[0]` is used only through its sign,
  which we model by the order on `Int`.
* A JS `Map` is modelled as an association list with insert-or-replace
  (`setBook`), lookup (`lookupBook`) returning `Option`.
* A `bintrees` red-black tree is modelled functionally as the list of its
  elements in comparator order: `insert` of a comparator-equal element is
  a no-op (bintrees `insert` returns `false` on duplicates), `remove`
  deletes the single comparator-equal node if present, `find` returns the
  comparator-equal element, and the iterator walks in comparator order.
* Accessing a property of `undefined` (looking up an instrument that was
  never initialized) throws a `TypeError` in JS; store-level operations
  therefore return `Except JsError`, with `JsError.typeError` standing for
  that uncaught crash.
* The per-operation timing statistics (`process.hrtime`, the `stats`
  object) are instrumentation on the environment, not book state; the spec
  treats them as an external collaborator, and they are not modelled.
-/

namespace OrderBook

/-- A parsed price (`Number(p)` of the feed's decimal string). -/
abbrev Price := Int

/-- A parsed size (`Number(q)`); sizes on the feed are non-negative. -/
abbrev Size := Nat

/-- A price level `[price, size]`. -/
abbrev Level := Price × Size

/-- Rank order of prices on one side.  `ascending = true` is the ask side
(best = lowest price first); `ascending = false` is the bid side
(best = highest price first).  `rankBefore asc p q` means `p` is strictly
better ranked than `q`.  This is the sign test of the JS comparators
`a[0] - b[0]` (asks) and `b[0] - a[0]` (bids). -/
def rankBefore (ascending : Bool) (p q : Price) : Bool :=
  if ascending then decide (p < q) else decide (q < p)

/-- A side is sorted by rank: iterated best to worst, prices are strictly
monotonic in the side's rank order (strictly increasing for asks,
strictly decreasing for bids).  In particular all prices are distinct. -/
abbrev SortedByRank (ascending : Bool) (l : List Level) : Prop :=
  List.Pairwise (fun x y => rankBefore ascending x.1 y.1 = true) l

/-- Every stored level has a strictly positive size. -/
abbrev PosSizes (l : List Level) : Prop := ∀ x ∈ l, 0 < x.2

/-- A snapshot event: raw bid and ask lists (`snapshot.b`, `snapshot.a`),
either of which may be absent in the JS object. -/
structure Snapshot where
  b : Option (List Level)
  a : Option (List Level)
deriving DecidableEq

/-- A delta event: raw bid and ask update lists (`delta.b`, `delta.a`),
either of which may be absent. -/
structure Delta where
  b : Option (List Level)
  a : Option (List Level)
deriving DecidableEq

/-! ### The array-merge strategy (`orderbook.merge.js`) -/

/-- `mergeSortedUpdates(current, updates, ascending)` from
`orderbook.merge.js`: the two-pointer linear merge.  While both lists are
nonempty it compares the front prices by rank (`cmp` is
`current[i][0] - updates[j][0]` for asks and the negation for bids):
`cmp < 0` keeps the current level; `cmp > 0` takes the update if its size
is nonzero; on equal prices the update replaces the current level when its
size is nonzero and deletes it otherwise.  The trailing loops drain the
remaining current levels unchanged and the remaining updates (skipping
size-0 ones). -/
def mergeSortedUpdates : List Level → List Level → Bool → List Level
  | [], updates, _ => updates.filter fun u => decide (u.2 ≠ 0)
  | c :: cs, [], _ => c :: cs
  | c :: cs, u :: us, ascending =>
    if rankBefore ascending c.1 u.1 then
      c :: mergeSortedUpdates cs (u :: us) ascending
    else if rankBefore ascending u.1 c.1 then
      if u.2 ≠ 0 then u :: mergeSortedUpdates (c :: cs) us ascending
      else mergeSortedUpdates (c :: cs) us ascending
    else
      if u.2 ≠ 0 then u :: mergeSortedUpdates cs us ascending
      else mergeSortedUpdates cs us ascending
  termination_by current updates _ => current.length + updates.length

/-- One instrument's book in the array-merge strategy: `{ bids, asks }`
with each side a plain array of levels. -/
structure MergeBook where
  bids : List Level
  asks : List Level
deriving DecidableEq

/-- `processSnapshot` of `orderbook.merge.js`, book part: each side is
replaced wholesale by the parsed snapshot list (`snapshot.b || []`,
`snapshot.a || []`), with no re-sorting and no filtering. -/
def MergeBook.processSnapshot (_book : MergeBook) (snapshot : Snapshot) : MergeBook :=
  { bids := snapshot.b.getD []
    asks := snapshot.a.getD [] }

/-- `processDelta` of `orderbook.merge.js`, book part: each side is merged
with its update list via `mergeSortedUpdates` (bids descending, asks
ascending), guarded by `delta.b?.length > 0` / `delta.a?.length > 0`, so an
absent or empty list leaves the side untouched. -/
def MergeBook.processDelta (book : MergeBook) (delta : Delta) : MergeBook :=
  let bidUpdates := delta.b.getD []
  let askUpdates := delta.a.getD []
  { bids := if 0 < bidUpdates.length then
        mergeSortedUpdates book.bids bidUpdates false
      else book.bids
    asks := if 0 < askUpdates.length then
        mergeSortedUpdates book.asks askUpdates true
      else book.asks }

/-! ### The tree strategy (`orderbook.Btree.js`) -/

/-- `bintrees` `insert` on the side ordered by `rankBefore ascending`:
walk to the first position whose key does not rank before the new key;
if that key is comparator-equal (same price) the insert is a no-op
(bintrees returns `false` and leaves the tree unchanged), otherwise the
new element is placed there. -/
def treeInsert (l : List Level) (x : Level) (ascending : Bool) : List Level :=
  match l with
  | [] => [x]
  | y :: ys =>
    if rankBefore ascending x.1 y.1 then x :: y :: ys
    else if rankBefore ascending y.1 x.1 then y :: treeInsert ys x ascending
    else y :: ys

/-- `bintrees` `find([price])`: the stored element with that price, if
any (the comparator only inspects the price component). -/
def treeFind (l : List Level) (p : Price) : Option Level :=
  l.find? fun y => decide (y.1 = p)

/-- `bintrees` `remove([price, _])`: delete the single comparator-equal
(same-price) node if present, else a no-op returning the tree unchanged. -/
def eraseByPrice : List Level → Price → List Level
  | [], _ => []
  | y :: ys, p => if y.1 = p then ys else y :: eraseByPrice ys p

/-- One `[p, q]` entry of a delta list in `processDelta` of
`orderbook.Btree.js`: `size === 0` removes the node at that price
(`remove([price, find([price])?.[1]])`, a no-op when absent); otherwise
the existing node at that price is removed if present and
`[price, size]` is inserted. -/
def treeUpdateOne (l : List Level) (u : Level) (ascending : Bool) : List Level :=
  if u.2 = 0 then eraseByPrice l u.1
  else
    match treeFind l u.1 with
    | some _ => treeInsert (eraseByPrice l u.1) u ascending
    | none => treeInsert l u ascending

/-- One instrument's book in the tree strategy: a bid tree (comparator
`b[0] - a[0]`, best = highest price first) and an ask tree (comparator
`a[0] - b[0]`, best = lowest price first), each modelled as its list of
elements in comparator order. -/
structure TreeBook where
  bids : List Level
  asks : List Level
deriving DecidableEq

/-- `processSnapshot` of `orderbook.Btree.js`, book part: clear both
trees, then insert every parsed level of `snapshot.b || []` and
`snapshot.a || []` in order. -/
def TreeBook.processSnapshot (_book : TreeBook) (snapshot : Snapshot) : TreeBook :=
  { bids := (snapshot.b.getD []).foldl (fun t lv => treeInsert t lv false) []
    asks := (snapshot.a.getD []).foldl (fun t lv => treeInsert t lv true) [] }

/-- `processDelta` of `orderbook.Btree.js`, book part: apply each `[p, q]`
of `delta.b` to the bid tree and each of `delta.a` to the ask tree, one at
a time, guarded by `delta.b?.length > 0` / `delta.a?.length > 0`. -/
def TreeBook.processDelta (book : TreeBook) (delta : Delta) : TreeBook :=
  let bidUpdates := delta.b.getD []
  let askUpdates := delta.a.getD []
  { bids := if 0 < bidUpdates.length then
        bidUpdates.foldl (fun t lv => treeUpdateOne t lv false) book.bids
      else book.bids
    asks := if 0 < askUpdates.length then
        askUpdates.foldl (fun t lv => treeUpdateOne t lv true) book.asks
      else book.asks }

/-! ### Store level (the `orderBooks` Map, with JS crash behaviour) -/

/-- The observable outcome of a JS operation that may throw: in both
source files an operation on an instrument never passed to `initialize`
reads a property of `undefined` (`this.orderBooks.get(pair)` is
`undefined`), which throws an uncaught `TypeError`. -/
inductive JsError
  | typeError
deriving DecidableEq

/-- `Map.get`: the book stored under `pair`, if any. -/
def lookupBook {α : Type} (books : List (String × α)) (pair : String) : Option α :=
  (books.find? fun e => decide (e.1 = pair)).map (fun e => e.2)

/-- `Map.set`: replace the entry under `pair` if present, else append a
new entry. -/
def setBook {α : Type} (books : List (String × α)) (pair : String) (book : α) :
    List (String × α) :=
  if books.any fun e => decide (e.1 = pair) then
    books.map fun e => if e.1 = pair then (pair, book) else e
  else books ++ [(pair, book)]

/-- The `orderBooks` map of `BybitOrderBookManager` (array-merge file). -/
structure MergeStore where
  books : List (String × MergeBook)
deriving DecidableEq

/-- `initialize(pairs)` of `orderbook.merge.js`: set an empty book
(`{ bids: [], asks: [] }`) for every pair. -/
def MergeStore.initialize (store : MergeStore) (pairs : List String) : MergeStore :=
  ⟨pairs.foldl (fun bs pair => setBook bs pair ⟨[], []⟩) store.books⟩

/-- `processSnapshot(pair, snapshot)` of `orderbook.merge.js` at store
level: looks up the book (an unknown pair yields `undefined` and the
first property write throws `TypeError`), then replaces both sides. -/
def MergeStore.processSnapshot (store : MergeStore) (pair : String) (snapshot : Snapshot) :
    Except JsError MergeStore :=
  match lookupBook store.books pair with
  | none => .error .typeError
  | some book => .ok ⟨setBook store.books pair (book.processSnapshot snapshot)⟩

/-- `processDelta(pair, delta)` of `orderbook.merge.js` at store level:
the guards `delta.b?.length > 0` and `delta.a?.length > 0` are evaluated
before the book is ever dereferenced, so a delta with both lists absent or
empty touches nothing (even for an unknown pair); otherwise an unknown
pair throws `TypeError` at the first `orderBook.bids` access. -/
def MergeStore.processDelta (store : MergeStore) (pair : String) (delta : Delta) :
    Except JsError MergeStore :=
  if delta.b.getD [] = [] ∧ delta.a.getD [] = [] then .ok store
  else
    match lookupBook store.books pair with
    | none => .error .typeError
    | some book => .ok ⟨setBook store.books pair (book.processDelta delta)⟩

/-- `getOrderBook(pair, depth)` of `orderbook.merge.js`: `slice(0, depth)`
of each side (a copy), `TypeError` for an unknown pair. -/
def MergeStore.getOrderBook (store : MergeStore) (pair : String) (depth : Nat) :
    Except JsError (List Level × List Level) :=
  match lookupBook store.books pair with
  | none => .error .typeError
  | some book => .ok (book.bids.take depth, book.asks.take depth)

/-- The `orderBooks` map of `OrderBookManager` (tree file). -/
structure TreeStore where
  books : List (String × TreeBook)
deriving DecidableEq

/-- `initialize(pairs)` of `orderbook.Btree.js`: set a book with two empty
trees for every pair. -/
def TreeStore.initialize (store : TreeStore) (pairs : List String) : TreeStore :=
  ⟨pairs.foldl (fun bs pair => setBook bs pair ⟨[], []⟩) store.books⟩

/-- `processSnapshot(pair, snapshot)` of `orderbook.Btree.js` at store
level: an unknown pair throws `TypeError` at `orderBook.bids.clear()`. -/
def TreeStore.processSnapshot (store : TreeStore) (pair : String) (snapshot : Snapshot) :
    Except JsError TreeStore :=
  match lookupBook store.books pair with
  | none => .error .typeError
  | some book => .ok ⟨setBook store.books pair (book.processSnapshot snapshot)⟩

/-- `processDelta(pair, delta)` of `orderbook.Btree.js` at store level:
unlike the merge file, `this.stats.bookSize = orderBook.bids.size` runs
unconditionally after the per-side guards, so an unknown pair throws
`TypeError` even when both update lists are absent or empty; for a known
pair the guarded book-level update is applied. -/
def TreeStore.processDelta (store : TreeStore) (pair : String) (delta : Delta) :
    Except JsError TreeStore :=
  match lookupBook store.books pair with
  | none => .error .typeError
  | some book => .ok ⟨setBook store.books pair (book.processDelta delta)⟩

/-- `getOrderBook(pair, depth)` of `orderbook.Btree.js`: walk each tree's
iterator from the best key collecting at most `depth` entries; `TypeError`
for an unknown pair. -/
def TreeStore.getOrderBook (store : TreeStore) (pair : String) (depth : Nat) :
    Except JsError (List Level × List Level) :=
  match lookupBook store.books pair with
  | none => .error .typeError
  | some book => .ok (book.bids.take depth, book.asks.take depth)

/-! ### Operation sequences -/

/-- One ingestion operation on an instrument's book. -/
inductive BookOp
  | snapshot (s : Snapshot)
  | delta (d : Delta)
deriving DecidableEq

/-- Apply one operation in the array-merge strategy. -/
def MergeBook.step (book : MergeBook) : BookOp → MergeBook
  | .snapshot s => book.processSnapshot s
  | .delta d => book.processDelta d

/-- Apply one operation in the tree strategy. -/
def TreeBook.step (book : TreeBook) : BookOp → TreeBook
  | .snapshot s => book.processSnapshot s
  | .delta d => book.processDelta d

/-- Run a sequence of operations in the array-merge strategy, starting
from the empty book `initialize` creates. -/
def MergeBook.run (ops : List BookOp) : MergeBook :=
  ops.foldl MergeBook.step ⟨[], []⟩

/-- Run a sequence of operations in the tree strategy, starting from the
empty book `initialize` creates. -/
def TreeBook.run (ops : List BookOp) : TreeBook :=
  ops.foldl TreeBook.step ⟨[], []⟩

/-- A well-formed feed operation, per the spec's external-interface
contract (§6): snapshot sides are sorted toward the best price and carry
positive sizes; delta lists are sorted toward the best price. -/
abbrev WFOp : BookOp → Prop
  | .snapshot s =>
      SortedByRank false (s.b.getD []) ∧ PosSizes (s.b.getD []) ∧
      SortedByRank true (s.a.getD []) ∧ PosSizes (s.a.getD [])
  | .delta d =>
      SortedByRank false (d.b.getD []) ∧ SortedByRank true (d.a.getD [])

/-- Apply a snapshot then a list of delta batches in the array-merge
strategy (the initialized book's sides are empty and the snapshot replaces
them wholesale). -/
def MergeBook.applyAll (s : Snapshot) (ds : List Delta) : MergeBook :=
  ds.foldl MergeBook.processDelta (MergeBook.processSnapshot ⟨[], []⟩ s)

/-- Apply a snapshot then a list of delta batches in the tree strategy. -/
def TreeBook.applyAll (s : Snapshot) (ds : List Delta) : TreeBook :=
  ds.foldl TreeBook.processDelta (TreeBook.processSnapshot ⟨[], []⟩ s)

/-! ### Order lemmas for `rankBefore` -/

theorem rankBefore_irrefl (ascending : Bool) (p : Price) :
    rankBefore ascending p p = false := by
  cases ascending <;> simp [rankBefore]

theorem rankBefore_trans {ascending : Bool} {p q r : Price}
    (h1 : rankBefore ascending p q = true) (h2 : rankBefore ascending q r = true) :
    rankBefore ascending p r = true := by
  cases ascending
  · simp [rankBefore] at h1 h2 ⊢
    exact lt_trans h2 h1
  · simp [rankBefore] at h1 h2 ⊢
    exact lt_trans h1 h2

theorem rankBefore_asymm {ascending : Bool} {p q : Price}
    (h : rankBefore ascending p q = true) : rankBefore ascending q p = false := by
  cases ascending
  · simp [rankBefore] at h ⊢
    exact le_of_lt h
  · simp [rankBefore] at h ⊢
    exact le_of_lt h

theorem rankBefore_ne {ascending : Bool} {p q : Price}
    (h : rankBefore ascending p q = true) : p ≠ q := by
  cases ascending
  · simp [rankBefore] at h
    exact ne_of_gt h
  · simp [rankBefore] at h
    exact ne_of_lt h

theorem eq_of_not_rankBefore {ascending : Bool} {p q : Price}
    (h1 : ¬rankBefore ascending p q = true) (h2 : ¬rankBefore ascending q p = true) :
    p = q := by
  cases ascending
  · simp [rankBefore] at h1 h2
    exact le_antisymm h1 h2
  · simp [rankBefore] at h1 h2
    exact le_antisymm h2 h1

/-- In a rank-sorted side all prices are pairwise distinct. -/
theorem SortedByRank.keys_ne {ascending : Bool} {l : List Level}
    (h : SortedByRank ascending l) :
    List.Pairwise (fun x y : Level => x.1 ≠ y.1) l :=
  h.imp fun hr => rankBefore_ne hr

/-! ### Lemmas about `mergeSortedUpdates` -/

theorem merge_nil_right (current : List Level) (ascending : Bool) :
    mergeSortedUpdates current [] ascending = current := by
  cases current <;> simp [mergeSortedUpdates]

/-- Every element of the merged side comes from the current side or is a
nonzero-size update. -/
theorem mem_merge {current updates : List Level} {ascending : Bool} {x : Level}
    (h : x ∈ mergeSortedUpdates current updates ascending) :
    x ∈ current ∨ (x ∈ updates ∧ x.2 ≠ 0) := by
  induction current, updates, ascending using mergeSortedUpdates.induct with
  | case1 updates asc =>
    rw [mergeSortedUpdates] at h
    simp only [List.mem_filter, decide_eq_true_iff] at h
    exact Or.inr h
  | case2 c cs asc =>
    rw [mergeSortedUpdates] at h
    exact Or.inl h
  | case3 c cs u us asc h1 ih =>
    rw [mergeSortedUpdates, if_pos h1] at h
    rcases List.mem_cons.mp h with h | h
    · exact Or.inl (by simp [h])
    · rcases ih h with h | h
      · exact Or.inl (List.mem_cons_of_mem _ h)
      · exact Or.inr h
  | case4 c cs u us asc h1 h2 h3 ih =>
    rw [mergeSortedUpdates, if_neg h1, if_pos h2, if_pos h3] at h
    rcases List.mem_cons.mp h with h | h
    · exact Or.inr ⟨by simp [h], by simp [h, h3]⟩
    · rcases ih h with h | h
      · exact Or.inl h
      · exact Or.inr ⟨List.mem_cons_of_mem _ h.1, h.2⟩
  | case5 c cs u us asc h1 h2 h3 ih =>
    rw [mergeSortedUpdates, if_neg h1, if_pos h2, if_neg h3] at h
    rcases ih h with h | h
    · exact Or.inl h
    · exact Or.inr ⟨List.mem_cons_of_mem _ h.1, h.2⟩
  | case6 c cs u us asc h1 h2 h3 ih =>
    rw [mergeSortedUpdates, if_neg h1, if_neg h2, if_pos h3] at h
    rcases List.mem_cons.mp h with h | h
    · exact Or.inr ⟨by simp [h], by simp [h, h3]⟩
    · rcases ih h with h | h
      · exact Or.inl (List.mem_cons_of_mem _ h)
      · exact Or.inr ⟨List.mem_cons_of_mem _ h.1, h.2⟩
  | case7 c cs u us asc h1 h2 h3 ih =>
    rw [mergeSortedUpdates, if_neg h1, if_neg h2, if_neg h3] at h
    rcases ih h with h | h
    · exact Or.inl (List.mem_cons_of_mem _ h)
    · exact Or.inr ⟨List.mem_cons_of_mem _ h.1, h.2⟩

/-- The merge of two rank-sorted lists is rank-sorted. -/
theorem merge_sorted (current updates : List Level) (ascending : Bool) :
    SortedByRank ascending current → SortedByRank ascending updates →
    SortedByRank ascending (mergeSortedUpdates current updates ascending) := by
  induction current, updates, ascending using mergeSortedUpdates.induct with
  | case1 updates asc =>
    intro _ hu
    rw [mergeSortedUpdates]
    exact hu.filter _
  | case2 c cs asc =>
    intro hc _
    rw [mergeSortedUpdates]
    exact hc
  | case3 c cs u us asc h1 ih =>
    intro hc hu
    obtain ⟨hcc, hc2⟩ := List.pairwise_cons.mp hc
    have huu := (List.pairwise_cons.mp hu).1
    rw [mergeSortedUpdates, if_pos h1]
    refine List.pairwise_cons.mpr ⟨?_, ih hc2 hu⟩
    intro y hy
    rcases mem_merge hy with h | h
    · exact hcc y h
    · rcases List.mem_cons.mp h.1 with rfl | hy2
      · exact h1
      · exact rankBefore_trans h1 (huu y hy2)
  | case4 c cs u us asc h1 h2 h3 ih =>
    intro hc hu
    obtain ⟨huu, hu2⟩ := List.pairwise_cons.mp hu
    have hcc := (List.pairwise_cons.mp hc).1
    rw [mergeSortedUpdates, if_neg h1, if_pos h2, if_pos h3]
    refine List.pairwise_cons.mpr ⟨?_, ih hc hu2⟩
    intro y hy
    rcases mem_merge hy with h | h
    · rcases List.mem_cons.mp h with rfl | hy2
      · exact h2
      · exact rankBefore_trans h2 (hcc y hy2)
    · exact huu y h.1
  | case5 c cs u us asc h1 h2 h3 ih =>
    intro hc hu
    rw [mergeSortedUpdates, if_neg h1, if_pos h2, if_neg h3]
    exact ih hc (List.pairwise_cons.mp hu).2
  | case6 c cs u us asc h1 h2 h3 ih =>
    intro hc hu
    obtain ⟨hcc, hc2⟩ := List.pairwise_cons.mp hc
    obtain ⟨huu, hu2⟩ := List.pairwise_cons.mp hu
    have hpe : c.1 = u.1 := eq_of_not_rankBefore h1 h2
    rw [mergeSortedUpdates, if_neg h1, if_neg h2, if_pos h3]
    refine List.pairwise_cons.mpr ⟨?_, ih hc2 hu2⟩
    intro y hy
    rcases mem_merge hy with h | h
    · have hr := hcc y h
      rwa [hpe] at hr
    · exact huu y h.1
  | case7 c cs u us asc h1 h2 h3 ih =>
    intro hc hu
    rw [mergeSortedUpdates, if_neg h1, if_neg h2, if_neg h3]
    exact ih (List.pairwise_cons.mp hc).2 (List.pairwise_cons.mp hu).2

/-- Declarative characterization of the two-pointer merge on rank-sorted
inputs: the result holds exactly the nonzero-size updates together with
the current levels whose price no update names. -/
theorem merge_mem_iff (current updates : List Level) (ascending : Bool) (x : Level) :
    SortedByRank ascending current → SortedByRank ascending updates →
    (x ∈ mergeSortedUpdates current updates ascending ↔
      (x ∈ updates ∧ x.2 ≠ 0) ∨ (x ∈ current ∧ ∀ v ∈ updates, v.1 ≠ x.1)) := by
  induction current, updates, ascending using mergeSortedUpdates.induct with
  | case1 updates asc =>
    intro _ _
    rw [mergeSortedUpdates]
    simp [List.mem_filter]
  | case2 c cs asc =>
    intro _ _
    rw [mergeSortedUpdates]
    simp
  | case3 c cs u us asc h1 ih =>
    intro hc hu
    obtain ⟨hcc, hc2⟩ := List.pairwise_cons.mp hc
    have huu := (List.pairwise_cons.mp hu).1
    have hA : ∀ v ∈ u :: us, v.1 ≠ c.1 := by
      intro v hv
      rcases List.mem_cons.mp hv with rfl | hv
      · exact (rankBefore_ne h1).symm
      · exact (rankBefore_ne (rankBefore_trans h1 (huu v hv))).symm
    rw [mergeSortedUpdates, if_pos h1, List.mem_cons, ih hc2 hu]
    constructor
    · rintro (rfl | h | h)
      · exact Or.inr ⟨List.mem_cons_self _ _, hA⟩
      · exact Or.inl h
      · exact Or.inr ⟨List.mem_cons_of_mem _ h.1, h.2⟩
    · rintro (h | h)
      · exact Or.inr (Or.inl h)
      · rcases List.mem_cons.mp h.1 with rfl | hx
        · exact Or.inl rfl
        · exact Or.inr (Or.inr ⟨hx, h.2⟩)
  | case4 c cs u us asc h1 h2 h3 ih =>
    intro hc hu
    obtain ⟨huu, hu2⟩ := List.pairwise_cons.mp hu
    have hcc := (List.pairwise_cons.mp hc).1
    have hB : ∀ y ∈ c :: cs, u.1 ≠ y.1 := by
      intro y hy
      rcases List.mem_cons.mp hy with rfl | hy
      · exact rankBefore_ne h2
      · exact rankBefore_ne (rankBefore_trans h2 (hcc y hy))
    rw [mergeSortedUpdates, if_neg h1, if_pos h2, if_pos h3, List.mem_cons, ih hc hu2]
    constructor
    · rintro (rfl | h | h)
      · exact Or.inl ⟨List.mem_cons_self _ _, h3⟩
      · exact Or.inl ⟨List.mem_cons_of_mem _ h.1, h.2⟩
      · refine Or.inr ⟨h.1, ?_⟩
        intro v hv
        rcases List.mem_cons.mp hv with rfl | hv
        · exact hB x h.1
        · exact h.2 v hv
    · rintro (h | h)
      · rcases List.mem_cons.mp h.1 with rfl | hx
        · exact Or.inl rfl
        · exact Or.inr (Or.inl ⟨hx, h.2⟩)
      · exact Or.inr (Or.inr ⟨h.1, fun v hv => h.2 v (List.mem_cons_of_mem _ hv)⟩)
  | case5 c cs u us asc h1 h2 h3 ih =>
    intro hc hu
    obtain ⟨huu, hu2⟩ := List.pairwise_cons.mp hu
    have hcc := (List.pairwise_cons.mp hc).1
    have hz : u.2 = 0 := by simpa using h3
    have hB : ∀ y ∈ c :: cs, u.1 ≠ y.1 := by
      intro y hy
      rcases List.mem_cons.mp hy with rfl | hy
      · exact rankBefore_ne h2
      · exact rankBefore_ne (rankBefore_trans h2 (hcc y hy))
    rw [mergeSortedUpdates, if_neg h1, if_pos h2, if_neg h3, ih hc hu2]
    constructor
    · rintro (h | h)
      · exact Or.inl ⟨List.mem_cons_of_mem _ h.1, h.2⟩
      · refine Or.inr ⟨h.1, ?_⟩
        intro v hv
        rcases List.mem_cons.mp hv with rfl | hv
        · exact hB x h.1
        · exact h.2 v hv
    · rintro (h | h)
      · rcases List.mem_cons.mp h.1 with rfl | hx
        · exact absurd hz h.2
        · exact Or.inl ⟨hx, h.2⟩
      · exact Or.inr ⟨h.1, fun v hv => h.2 v (List.mem_cons_of_mem _ hv)⟩
  | case6 c cs u us asc h1 h2 h3 ih =>
    intro hc hu
    obtain ⟨hcc, hc2⟩ := List.pairwise_cons.mp hc
    obtain ⟨huu, hu2⟩ := List.pairwise_cons.mp hu
    have hpe : c.1 = u.1 := eq_of_not_rankBefore h1 h2
    rw [mergeSortedUpdates, if_neg h1, if_neg h2, if_pos h3, List.mem_cons, ih hc2 hu2]
    constructor
    · rintro (rfl | h | h)
      · exact Or.inl ⟨List.mem_cons_self _ _, h3⟩
      · exact Or.inl ⟨List.mem_cons_of_mem _ h.1, h.2⟩
      · refine Or.inr ⟨List.mem_cons_of_mem _ h.1, ?_⟩
        intro v hv
        rcases List.mem_cons.mp hv with rfl | hv
        · have := hcc x h.1
          rw [hpe] at this
          exact rankBefore_ne this
        · exact h.2 v hv
    · rintro (h | h)
      · rcases List.mem_cons.mp h.1 with rfl | hx
        · exact Or.inl rfl
        · exact Or.inr (Or.inl ⟨hx, h.2⟩)
      · rcases List.mem_cons.mp h.1 with rfl | hx
        · exact absurd hpe.symm (h.2 u (List.mem_cons_self _ _))
        · exact Or.inr (Or.inr ⟨hx, fun v hv => h.2 v (List.mem_cons_of_mem _ hv)⟩)
  | case7 c cs u us asc h1 h2 h3 ih =>
    intro hc hu
    obtain ⟨hcc, hc2⟩ := List.pairwise_cons.mp hc
    obtain ⟨huu, hu2⟩ := List.pairwise_cons.mp hu
    have hpe : c.1 = u.1 := eq_of_not_rankBefore h1 h2
    have hz : u.2 = 0 := by simpa using h3
    rw [mergeSortedUpdates, if_neg h1, if_neg h2, if_neg h3, ih hc2 hu2]
    constructor
    · rintro (h | h)
      · exact Or.inl ⟨List.mem_cons_of_mem _ h.1, h.2⟩
      · refine Or.inr ⟨List.mem_cons_of_mem _ h.1, ?_⟩
        intro v hv
        rcases List.mem_cons.mp hv with rfl | hv
        · have := hcc x h.1
          rw [hpe] at this
          exact rankBefore_ne this
        · exact h.2 v hv
    · rintro (h | h)
      · rcases List.mem_cons.mp h.1 with rfl | hx
        · exact absurd hz h.2
        · exact Or.inl ⟨hx, h.2⟩
      · rcases List.mem_cons.mp h.1 with rfl | hx
        · exact absurd hpe.symm (h.2 u (List.mem_cons_self _ _))
        · exact Or.inr ⟨hx, fun v hv => h.2 v (List.mem_cons_of_mem _ hv)⟩

/-! ### Lemmas about the tree-side model -/

theorem mem_treeInsert {l : List Level} {x y : Level} {ascending : Bool}
    (h : y ∈ treeInsert l x ascending) : y ∈ l ∨ y = x := by
  induction l with
  | nil =>
    rw [treeInsert] at h
    exact Or.inr (List.mem_singleton.mp h)
  | cons z zs ih =>
    rw [treeInsert] at h
    by_cases h1 : rankBefore ascending x.1 z.1
    · rw [if_pos h1] at h
      rcases List.mem_cons.mp h with rfl | h
      · exact Or.inr rfl
      · exact Or.inl h
    · rw [if_neg h1] at h
      by_cases h2 : rankBefore ascending z.1 x.1
      · rw [if_pos h2] at h
        rcases List.mem_cons.mp h with rfl | h
        · exact Or.inl (List.mem_cons_self _ _)
        · rcases ih h with h | h
          · exact Or.inl (List.mem_cons_of_mem _ h)
          · exact Or.inr h
      · rw [if_neg h2] at h
        exact Or.inl h

theorem treeInsert_sorted {l : List Level} {x : Level} {ascending : Bool}
    (hl : SortedByRank ascending l) : SortedByRank ascending (treeInsert l x ascending) := by
  induction l with
  | nil => simp [treeInsert]
  | cons z zs ih =>
    obtain ⟨hz, hzs⟩ := List.pairwise_cons.mp hl
    rw [treeInsert]
    by_cases h1 : rankBefore ascending x.1 z.1
    · rw [if_pos h1]
      refine List.pairwise_cons.mpr ⟨?_, hl⟩
      intro y hy
      rcases List.mem_cons.mp hy with rfl | hy
      · exact h1
      · exact rankBefore_trans h1 (hz y hy)
    · rw [if_neg h1]
      by_cases h2 : rankBefore ascending z.1 x.1
      · rw [if_pos h2]
        refine List.pairwise_cons.mpr ⟨?_, ih hzs⟩
        intro y hy
        rcases mem_treeInsert hy with h | rfl
        · exact hz y h
        · exact h2
      · rw [if_neg h2]
        exact hl

theorem mem_treeInsert_iff {l : List Level} {x : Level} {ascending : Bool}
    (hl : SortedByRank ascending l) (y : Level) :
    y ∈ treeInsert l x ascending ↔ y ∈ l ∨ (y = x ∧ ∀ z ∈ l, z.1 ≠ x.1) := by
  induction l with
  | nil => simp [treeInsert]
  | cons z zs ih =>
    obtain ⟨hz, hzs⟩ := List.pairwise_cons.mp hl
    rw [treeInsert]
    by_cases h1 : rankBefore ascending x.1 z.1
    · rw [if_pos h1]
      have hk : ∀ w ∈ z :: zs, w.1 ≠ x.1 := by
        intro w hw
        rcases List.mem_cons.mp hw with rfl | hw
        · exact (rankBefore_ne h1).symm
        · exact (rankBefore_ne (rankBefore_trans h1 (hz w hw))).symm
      constructor
      · intro h
        rcases List.mem_cons.mp h with rfl | h
        · exact Or.inr ⟨rfl, hk⟩
        · exact Or.inl h
      · rintro (h | ⟨rfl, _⟩)
        · exact List.mem_cons_of_mem _ h
        · exact List.mem_cons_self _ _
    · rw [if_neg h1]
      by_cases h2 : rankBefore ascending z.1 x.1
      · rw [if_pos h2, List.mem_cons, ih hzs]
        constructor
        · rintro (rfl | h | ⟨rfl, hk⟩)
          · exact Or.inl (List.mem_cons_self _ _)
          · exact Or.inl (List.mem_cons_of_mem _ h)
          · refine Or.inr ⟨rfl, ?_⟩
            intro w hw
            rcases List.mem_cons.mp hw with rfl | hw
            · exact rankBefore_ne h2
            · exact hk w hw
        · rintro (h | ⟨rfl, hk⟩)
          · rcases List.mem_cons.mp h with rfl | h
            · exact Or.inl rfl
            · exact Or.inr (Or.inl h)
          · exact Or.inr (Or.inr ⟨rfl, fun w hw => hk w (List.mem_cons_of_mem _ hw)⟩)
      · rw [if_neg h2]
        have hpe : x.1 = z.1 := eq_of_not_rankBefore h1 h2
        constructor
        · intro h
          exact Or.inl h
        · rintro (h | ⟨rfl, hk⟩)
          · exact h
          · exact absurd hpe.symm (hk z (List.mem_cons_self _ _))

theorem eraseByPrice_sublist (l : List Level) (p : Price) :
    List.Sublist (eraseByPrice l p) l := by
  induction l with
  | nil => simp [eraseByPrice]
  | cons z zs ih =>
    rw [eraseByPrice]
    by_cases h : z.1 = p
    · rw [if_pos h]
      exact List.sublist_cons_self z zs
    · rw [if_neg h]
      exact ih.cons₂ z

theorem eraseByPrice_sorted {l : List Level} {p : Price} {ascending : Bool}
    (hl : SortedByRank ascending l) : SortedByRank ascending (eraseByPrice l p) :=
  hl.sublist (eraseByPrice_sublist l p)

theorem eraseByPrice_eq_filter {l : List Level} {p : Price}
    (hl : List.Pairwise (fun x y : Level => x.1 ≠ y.1) l) :
    eraseByPrice l p = l.filter fun y => decide (y.1 ≠ p) := by
  induction l with
  | nil => rfl
  | cons z zs ih =>
    obtain ⟨hz, hzs⟩ := List.pairwise_cons.mp hl
    rw [eraseByPrice, List.filter_cons]
    by_cases h : z.1 = p
    · rw [if_pos h]
      have hd : (decide (z.1 ≠ p) : Bool) = false := by simp [h]
      rw [hd]
      simp only [Bool.false_eq_true, if_false]
      symm
      rw [List.filter_eq_self]
      intro a ha
      simp only [decide_eq_true_iff]
      intro hap
      exact hz a ha (h.trans hap.symm)
    · rw [if_neg h]
      have hd : (decide (z.1 ≠ p) : Bool) = true := by simp [h]
      rw [hd]
      simp only [if_true]
      rw [ih hzs]

theorem mem_eraseByPrice_iff {l : List Level} {p : Price}
    (hl : List.Pairwise (fun x y : Level => x.1 ≠ y.1) l) (y : Level) :
    y ∈ eraseByPrice l p ↔ y ∈ l ∧ y.1 ≠ p := by
  rw [eraseByPrice_eq_filter hl]
  simp [List.mem_filter]

theorem treeFind_eq_none_iff {l : List Level} {p : Price} :
    treeFind l p = none ↔ ∀ y ∈ l, y.1 ≠ p := by
  simp [treeFind, List.find?_eq_none]

theorem treeUpdateOne_sorted {l : List Level} {u : Level} {ascending : Bool}
    (hl : SortedByRank ascending l) : SortedByRank ascending (treeUpdateOne l u ascending) := by
  rw [treeUpdateOne]
  by_cases hz : u.2 = 0
  · rw [if_pos hz]
    exact eraseByPrice_sorted hl
  · rw [if_neg hz]
    cases treeFind l u.1 with
    | some w => exact treeInsert_sorted (eraseByPrice_sorted hl)
    | none => exact treeInsert_sorted hl

theorem mem_treeUpdateOne_iff {l : List Level} {u : Level} {ascending : Bool}
    (hl : SortedByRank ascending l) (y : Level) :
    y ∈ treeUpdateOne l u ascending ↔ (y = u ∧ u.2 ≠ 0) ∨ (y ∈ l ∧ y.1 ≠ u.1) := by
  rw [treeUpdateOne]
  by_cases hz : u.2 = 0
  · rw [if_pos hz, mem_eraseByPrice_iff (SortedByRank.keys_ne hl)]
    constructor
    · intro h
      exact Or.inr h
    · rintro (⟨_, h⟩ | h)
      · exact absurd hz h
      · exact h
  · rw [if_neg hz]
    cases hfind : treeFind l u.1 with
    | some w =>
      rw [mem_treeInsert_iff (eraseByPrice_sorted hl) y]
      have hkeys : ∀ z ∈ eraseByPrice l u.1, z.1 ≠ u.1 := by
        intro z hzm
        exact ((mem_eraseByPrice_iff (SortedByRank.keys_ne hl) z).mp hzm).2
      rw [mem_eraseByPrice_iff (SortedByRank.keys_ne hl)]
      constructor
      · rintro (h | ⟨rfl, _⟩)
        · exact Or.inr h
        · exact Or.inl ⟨rfl, hz⟩
      · rintro (⟨rfl, _⟩ | h)
        · exact Or.inr ⟨rfl, hkeys⟩
        · exact Or.inl h
    | none =>
      rw [mem_treeInsert_iff hl y]
      have hnone : ∀ z ∈ l, z.1 ≠ u.1 := treeFind_eq_none_iff.mp hfind
      constructor
      · rintro (h | ⟨rfl, _⟩)
        · exact Or.inr ⟨h, hnone y h⟩
        · exact Or.inl ⟨rfl, hz⟩
      · rintro (⟨rfl, _⟩ | h)
        · exact Or.inr ⟨rfl, hnone⟩
        · exact Or.inl h.1

theorem treeFold_sorted (updates : List Level) (ascending : Bool) :
    ∀ l : List Level, SortedByRank ascending l →
      SortedByRank ascending (updates.foldl (fun t lv => treeUpdateOne t lv ascending) l) := by
  induction updates with
  | nil => exact fun l hl => hl
  | cons u us ih =>
    intro l hl
    rw [List.foldl_cons]
    exact ih _ (treeUpdateOne_sorted hl)

theorem mem_treeFold_iff (updates : List Level) (ascending : Bool) (y : Level) :
    SortedByRank ascending updates → ∀ l : List Level, SortedByRank ascending l →
      (y ∈ updates.foldl (fun t lv => treeUpdateOne t lv ascending) l ↔
        (y ∈ updates ∧ y.2 ≠ 0) ∨ (y ∈ l ∧ ∀ v ∈ updates, v.1 ≠ y.1)) := by
  induction updates with
  | nil =>
    intro _ l _
    simp
  | cons u us ih =>
    intro hu l hl
    obtain ⟨huu, hu2⟩ := List.pairwise_cons.mp hu
    rw [List.foldl_cons, ih hu2 (treeUpdateOne l u ascending) (treeUpdateOne_sorted hl),
      mem_treeUpdateOne_iff hl y]
    have hukey : ∀ v ∈ us, v.1 ≠ u.1 := fun v hv => (rankBefore_ne (huu v hv)).symm
    constructor
    · rintro (h | ⟨⟨rfl, hnz⟩ | ⟨hyl, hne⟩, hks⟩)
      · exact Or.inl ⟨List.mem_cons_of_mem _ h.1, h.2⟩
      · exact Or.inl ⟨List.mem_cons_self _ _, hnz⟩
      · refine Or.inr ⟨hyl, ?_⟩
        intro v hv
        rcases List.mem_cons.mp hv with rfl | hv
        · exact fun he => hne he.symm
        · exact hks v hv
    · rintro (⟨hy, hnz⟩ | ⟨hyl, hks⟩)
      · rcases List.mem_cons.mp hy with rfl | hy
        · exact Or.inr ⟨Or.inl ⟨rfl, hnz⟩, fun v hv => hukey v hv⟩
        · exact Or.inl ⟨hy, hnz⟩
      · refine Or.inr ⟨Or.inr ⟨hyl, ?_⟩, ?_⟩
        · exact (hks u (List.mem_cons_self _ _)).symm
        · exact fun v hv => hks v (List.mem_cons_of_mem _ hv)

/-- Two rank-sorted sides with the same members are equal. -/
theorem sorted_eq_of_mem_iff {ascending : Bool} :
    ∀ {l1 l2 : List Level}, SortedByRank ascending l1 → SortedByRank ascending l2 →
      (∀ y, y ∈ l1 ↔ y ∈ l2) → l1 = l2 := by
  intro l1
  induction l1 with
  | nil =>
    intro l2 _ _ hmem
    cases l2 with
    | nil => rfl
    | cons z zs => exact absurd ((hmem z).mpr (List.mem_cons_self _ _)) (List.not_mem_nil z)
  | cons x xs ih =>
    intro l2 h1 h2 hmem
    cases l2 with
    | nil => exact absurd ((hmem x).mp (List.mem_cons_self _ _)) (List.not_mem_nil x)
    | cons z zs =>
      obtain ⟨hx, hxs⟩ := List.pairwise_cons.mp h1
      obtain ⟨hz, hzs⟩ := List.pairwise_cons.mp h2
      have hxz : x = z := by
        rcases List.mem_cons.mp ((hmem x).mp (List.mem_cons_self _ _)) with h | h
        · exact h
        · rcases List.mem_cons.mp ((hmem z).mpr (List.mem_cons_self _ _)) with h9 | h9
          · exact h9.symm
          · have r1 := hz x h
            have r2 := hx z h9
            rw [rankBefore_asymm r2] at r1
            exact absurd r1 (by simp)
      subst hxz
      congr 1
      apply ih hxs hzs
      intro y
      constructor
      · intro hy
        rcases List.mem_cons.mp ((hmem y).mp (List.mem_cons_of_mem _ hy)) with rfl | h
        · have := hx y hy
          rw [rankBefore_irrefl] at this
          exact absurd this (by simp)
        · exact h
      · intro hy
        rcases List.mem_cons.mp ((hmem y).mpr (List.mem_cons_of_mem _ hy)) with rfl | h
        · have := hz y hy
          rw [rankBefore_irrefl] at this
          exact absurd this (by simp)
        · exact h

/-- On rank-sorted inputs, the array strategy's batch merge computes the
same side as applying the updates one at a time through the tree-update
path. -/
theorem merge_eq_treeFold {current updates : List Level} {ascending : Bool}
    (hc : SortedByRank ascending current) (hu : SortedByRank ascending updates) :
    mergeSortedUpdates current updates ascending =
      updates.foldl (fun t lv => treeUpdateOne t lv ascending) current := by
  apply sorted_eq_of_mem_iff (merge_sorted _ _ _ hc hu)
    (treeFold_sorted updates ascending current hc)
  intro y
  rw [merge_mem_iff current updates ascending y hc hu,
    mem_treeFold_iff updates ascending y hu current hc]

theorem treeInsert_append {l : List Level} {x : Level} {ascending : Bool}
    (h : ∀ y ∈ l, rankBefore ascending y.1 x.1 = true) :
    treeInsert l x ascending = l ++ [x] := by
  induction l with
  | nil => rfl
  | cons z zs ih =>
    rw [treeInsert]
    have hz := h z (List.mem_cons_self _ _)
    rw [if_neg (by rw [rankBefore_asymm hz]; simp), if_pos hz,
      ih (fun y hy => h y (List.mem_cons_of_mem _ hy))]
    rfl

theorem treeInsertFold_eq (rest : List Level) (ascending : Bool) :
    ∀ acc : List Level, SortedByRank ascending (acc ++ rest) →
      rest.foldl (fun t lv => treeInsert t lv ascending) acc = acc ++ rest := by
  induction rest with
  | nil =>
    intro acc _
    simp
  | cons r rest ih =>
    intro acc h
    rw [List.foldl_cons]
    have hacc : ∀ y ∈ acc, rankBefore ascending y.1 r.1 = true := by
      intro y hy
      exact (List.pairwise_append.mp h).2.2 y hy r (List.mem_cons_self _ _)
    rw [treeInsert_append hacc, ih (acc ++ [r]) (by simpa [List.append_assoc] using h)]
    simp

/-- Inserting an already rank-sorted snapshot list into an empty tree
reproduces it exactly. -/
theorem treeSnapshot_eq {s : List Level} {ascending : Bool}
    (h : SortedByRank ascending s) :
    s.foldl (fun t lv => treeInsert t lv ascending) [] = s :=
  treeInsertFold_eq s ascending [] (by simpa using h)

/-! ### Invariant preservation -/

theorem mem_treeUpdateOne_sub {l : List Level} {u y : Level} {ascending : Bool}
    (h : y ∈ treeUpdateOne l u ascending) : y ∈ l ∨ (y = u ∧ u.2 ≠ 0) := by
  rw [treeUpdateOne] at h
  by_cases hz : u.2 = 0
  · rw [if_pos hz] at h
    exact Or.inl ((eraseByPrice_sublist l u.1).subset h)
  · rw [if_neg hz] at h
    cases hfind : treeFind l u.1 with
    | some w =>
      rw [hfind] at h
      rcases mem_treeInsert h with h | rfl
      · exact Or.inl ((eraseByPrice_sublist l u.1).subset h)
      · exact Or.inr ⟨rfl, hz⟩
    | none =>
      rw [hfind] at h
      rcases mem_treeInsert h with h | rfl
      · exact Or.inl h
      · exact Or.inr ⟨rfl, hz⟩

theorem merge_posSizes {current updates : List Level} {ascending : Bool}
    (hc : PosSizes current) :
    PosSizes (mergeSortedUpdates current updates ascending) := by
  intro x hx
  rcases mem_merge hx with h | h
  · exact hc x h
  · exact Nat.pos_of_ne_zero h.2

theorem treeFold_posSizes (updates : List Level) (ascending : Bool) :
    ∀ l : List Level, PosSizes l →
      PosSizes (updates.foldl (fun t lv => treeUpdateOne t lv ascending) l) := by
  induction updates with
  | nil => exact fun l hl => hl
  | cons u us ih =>
    intro l hl
    rw [List.foldl_cons]
    apply ih
    intro x hx
    rcases mem_treeUpdateOne_sub hx with h | ⟨rfl, hnz⟩
    · exact hl x h
    · exact Nat.pos_of_ne_zero hnz

instance (op : BookOp) : Decidable (WFOp op) := by
  cases op with
  | snapshot s => exact inferInstance
  | delta d => exact inferInstance

theorem mergeStep_inv {book : MergeBook} {op : BookOp}
    (hb : SortedByRank false book.bids) (hpb : PosSizes book.bids)
    (ha : SortedByRank true book.asks) (hpa : PosSizes book.asks)
    (hop : WFOp op) :
    SortedByRank false (book.step op).bids ∧ PosSizes (book.step op).bids ∧
    SortedByRank true (book.step op).asks ∧ PosSizes (book.step op).asks := by
  cases op with
  | snapshot s => exact ⟨hop.1, hop.2.1, hop.2.2.1, hop.2.2.2⟩
  | delta d =>
    obtain ⟨hdb, hda⟩ := hop
    simp only [MergeBook.step, MergeBook.processDelta]
    refine ⟨?_, ?_, ?_, ?_⟩
    · by_cases h : 0 < (d.b.getD []).length
      · simpa [h] using merge_sorted book.bids (d.b.getD []) false hb hdb
      · simpa [h] using hb
    · by_cases h : 0 < (d.b.getD []).length
      · simpa [h] using
          (merge_posSizes hpb : PosSizes (mergeSortedUpdates book.bids (d.b.getD []) false))
      · simpa [h] using hpb
    · by_cases h : 0 < (d.a.getD []).length
      · simpa [h] using merge_sorted book.asks (d.a.getD []) true ha hda
      · simpa [h] using ha
    · by_cases h : 0 < (d.a.getD []).length
      · simpa [h] using
          (merge_posSizes hpa : PosSizes (mergeSortedUpdates book.asks (d.a.getD []) true))
      · simpa [h] using hpa

theorem treeStep_inv {book : TreeBook} {op : BookOp}
    (hb : SortedByRank false book.bids) (hpb : PosSizes book.bids)
    (ha : SortedByRank true book.asks) (hpa : PosSizes book.asks)
    (hop : WFOp op) :
    SortedByRank false (book.step op).bids ∧ PosSizes (book.step op).bids ∧
    SortedByRank true (book.step op).asks ∧ PosSizes (book.step op).asks := by
  cases op with
  | snapshot s =>
    obtain ⟨hsb, hpb2, hsa, hpa2⟩ := hop
    simp only [TreeBook.step, TreeBook.processSnapshot]
    rw [treeSnapshot_eq hsb, treeSnapshot_eq hsa]
    exact ⟨hsb, hpb2, hsa, hpa2⟩
  | delta d =>
    obtain ⟨hdb, hda⟩ := hop
    simp only [TreeBook.step, TreeBook.processDelta]
    refine ⟨?_, ?_, ?_, ?_⟩
    · by_cases h : 0 < (d.b.getD []).length
      · simpa [h] using treeFold_sorted (d.b.getD []) false book.bids hb
      · simpa [h] using hb
    · by_cases h : 0 < (d.b.getD []).length
      · simpa [h] using treeFold_posSizes (d.b.getD []) false book.bids hpb
      · simpa [h] using hpb
    · by_cases h : 0 < (d.a.getD []).length
      · simpa [h] using treeFold_sorted (d.a.getD []) true book.asks ha
      · simpa [h] using ha
    · by_cases h : 0 < (d.a.getD []).length
      · simpa [h] using treeFold_posSizes (d.a.getD []) true book.asks hpa
      · simpa [h] using hpa

theorem run_inv_merge (ops : List BookOp) :
    ∀ book : MergeBook, (∀ op ∈ ops, WFOp op) →
      SortedByRank false book.bids → PosSizes book.bids →
      SortedByRank true book.asks → PosSizes book.asks →
      SortedByRank false (ops.foldl MergeBook.step book).bids ∧
      PosSizes (ops.foldl MergeBook.step book).bids ∧
      SortedByRank true (ops.foldl MergeBook.step book).asks ∧
      PosSizes (ops.foldl MergeBook.step book).asks := by
  induction ops with
  | nil => exact fun book _ hb hpb ha hpa => ⟨hb, hpb, ha, hpa⟩
  | cons op ops ih =>
    intro book hwf hb hpb ha hpa
    rw [List.foldl_cons]
    obtain ⟨h1, h2, h3, h4⟩ :=
      mergeStep_inv hb hpb ha hpa (hwf op (List.mem_cons_self _ _))
    exact ih _ (fun o ho => hwf o (List.mem_cons_of_mem _ ho)) h1 h2 h3 h4

theorem run_inv_tree (ops : List BookOp) :
    ∀ book : TreeBook, (∀ op ∈ ops, WFOp op) →
      SortedByRank false book.bids → PosSizes book.bids →
      SortedByRank true book.asks → PosSizes book.asks →
      SortedByRank false (ops.foldl TreeBook.step book).bids ∧
      PosSizes (ops.foldl TreeBook.step book).bids ∧
      SortedByRank true (ops.foldl TreeBook.step book).asks ∧
      PosSizes (ops.foldl TreeBook.step book).asks := by
  induction ops with
  | nil => exact fun book _ hb hpb ha hpa => ⟨hb, hpb, ha, hpa⟩
  | cons op ops ih =>
    intro book hwf hb hpb ha hpa
    rw [List.foldl_cons]
    obtain ⟨h1, h2, h3, h4⟩ :=
      treeStep_inv hb hpb ha hpa (hwf op (List.mem_cons_self _ _))
    exact ih _ (fun o ho => hwf o (List.mem_cons_of_mem _ ho)) h1 h2 h3 h4

/-- Lockstep agreement of the two strategies on delta batches: starting
from equal, rank-sorted sides, folding rank-sorted delta batches through
`MergeBook.processDelta` and through `TreeBook.processDelta` keeps both
sides equal. -/
theorem deltas_agree (ds : List Delta) :
    ∀ (mb : MergeBook) (tb : TreeBook), mb.bids = tb.bids → mb.asks = tb.asks →
      SortedByRank false tb.bids → SortedByRank true tb.asks →
      (∀ d ∈ ds, SortedByRank false (d.b.getD []) ∧ SortedByRank true (d.a.getD [])) →
      (ds.foldl MergeBook.processDelta mb).bids = (ds.foldl TreeBook.processDelta tb).bids ∧
      (ds.foldl MergeBook.processDelta mb).asks = (ds.foldl TreeBook.processDelta tb).asks := by
  induction ds with
  | nil => exact fun mb tb h1 h2 _ _ _ => ⟨h1, h2⟩
  | cons d ds ih =>
    intro mb tb h1 h2 hsb hsa hd
    rw [List.foldl_cons, List.foldl_cons]
    have hdb := (hd d (List.mem_cons_self _ _)).1
    have hda := (hd d (List.mem_cons_self _ _)).2
    have hbids : (mb.processDelta d).bids = (tb.processDelta d).bids := by
      simp only [MergeBook.processDelta, TreeBook.processDelta]
      rw [h1]
      by_cases h : 0 < (d.b.getD []).length
      · simp only [if_pos h]
        exact merge_eq_treeFold hsb hdb
      · simp only [if_neg h]
    have hasks : (mb.processDelta d).asks = (tb.processDelta d).asks := by
      simp only [MergeBook.processDelta, TreeBook.processDelta]
      rw [h2]
      by_cases h : 0 < (d.a.getD []).length
      · simp only [if_pos h]
        exact merge_eq_treeFold hsa hda
      · simp only [if_neg h]
    apply ih _ _ hbids hasks
    · simp only [TreeBook.processDelta]
      by_cases h : 0 < (d.b.getD []).length
      · simpa [h] using treeFold_sorted (d.b.getD []) false tb.bids hsb
      · simpa [h] using hsb
    · simp only [TreeBook.processDelta]
      by_cases h : 0 < (d.a.getD []).length
      · simpa [h] using treeFold_sorted (d.a.getD []) true tb.asks hsa
      · simpa [h] using hsa
    · exact fun o ho => hd o (List.mem_cons_of_mem _ ho)

/-! ### Claim C1 -/

/-- Claim C1, counterexample to the claim as stated: the array-merge
strategy stores snapshot input verbatim, so the snapshot
`{b: [[99, 1], [100, 0]]}` leaves a bid side that is not strictly
decreasing in price and that stores a level with size exactly 0. -/
theorem claim1_counterexample :
    (MergeBook.run [BookOp.snapshot ⟨some [(99, 1), (100, 0)], none⟩]).bids
        = [(99, 1), (100, 0)] ∧
    ¬ SortedByRank false [((99 : Price), (1 : Size)), (100, 0)] ∧
    ¬ PosSizes [((99 : Price), (1 : Size)), (100, 0)] :=
  ⟨rfl, by decide, by decide⟩

/-- Claim C1 (amended): for every sequence of snapshot and delta
operations whose snapshots carry rank-sorted sides with strictly positive
sizes and whose delta lists are rank-sorted (the feed contract of spec
§6), after the sequence each side of the book — in both strategies —
has strictly monotonic prices in the side's rank order (strictly
decreasing for bids, strictly increasing for asks) and every stored level
has a strictly positive size.  Since every prefix of a well-formed
sequence is well-formed, this holds after each operation. -/
theorem claim1_invariant (ops : List BookOp) (hwf : ∀ op ∈ ops, WFOp op) :
    SortedByRank false (MergeBook.run ops).bids ∧ PosSizes (MergeBook.run ops).bids ∧
    SortedByRank true (MergeBook.run ops).asks ∧ PosSizes (MergeBook.run ops).asks ∧
    SortedByRank false (TreeBook.run ops).bids ∧ PosSizes (TreeBook.run ops).bids ∧
    SortedByRank true (TreeBook.run ops).asks ∧ PosSizes (TreeBook.run ops).asks := by
  obtain ⟨m1, m2, m3, m4⟩ :=
    run_inv_merge ops ⟨[], []⟩ hwf (by simp) (by simp) (by simp) (by simp)
  obtain ⟨t1, t2, t3, t4⟩ :=
    run_inv_tree ops ⟨[], []⟩ hwf (by simp) (by simp) (by simp) (by simp)
  exact ⟨m1, m2, m3, m4, t1, t2, t3, t4⟩

/-- Claim C1 witness: a concrete well-formed snapshot+delta sequence on
which the invariant theorem is instantiated. -/
theorem claim1_witness :
    (∀ op ∈ ([BookOp.snapshot ⟨some [(100, 5)], none⟩,
        BookOp.delta ⟨some [(100, 0)], none⟩] : List BookOp), WFOp op) ∧
    (SortedByRank false (MergeBook.run [BookOp.snapshot ⟨some [(100, 5)], none⟩,
        BookOp.delta ⟨some [(100, 0)], none⟩]).bids ∧
      PosSizes (MergeBook.run [BookOp.snapshot ⟨some [(100, 5)], none⟩,
        BookOp.delta ⟨some [(100, 0)], none⟩]).bids ∧
      SortedByRank true (MergeBook.run [BookOp.snapshot ⟨some [(100, 5)], none⟩,
        BookOp.delta ⟨some [(100, 0)], none⟩]).asks ∧
      PosSizes (MergeBook.run [BookOp.snapshot ⟨some [(100, 5)], none⟩,
        BookOp.delta ⟨some [(100, 0)], none⟩]).asks ∧
      SortedByRank false (TreeBook.run [BookOp.snapshot ⟨some [(100, 5)], none⟩,
        BookOp.delta ⟨some [(100, 0)], none⟩]).bids ∧
      PosSizes (TreeBook.run [BookOp.snapshot ⟨some [(100, 5)], none⟩,
        BookOp.delta ⟨some [(100, 0)], none⟩]).bids ∧
      SortedByRank true (TreeBook.run [BookOp.snapshot ⟨some [(100, 5)], none⟩,
        BookOp.delta ⟨some [(100, 0)], none⟩]).asks ∧
      PosSizes (TreeBook.run [BookOp.snapshot ⟨some [(100, 5)], none⟩,
        BookOp.delta ⟨some [(100, 0)], none⟩]).asks) :=
  ⟨by decide, claim1_invariant _ (by decide)⟩

/-! ### Claim C2 -/

/-- Claim C2, counterexample to the claim as stated: for an arbitrary
(here: duplicate-price) snapshot the two strategies diverge — the array
strategy stores both `[100, 5]` and `[100, 3]` verbatim while the tree
strategy drops the duplicate-key insert, so the `(price, size)` sets
differ already with no deltas at all. -/
theorem claim2_counterexample :
    ((100, 3) : Level) ∈ (MergeBook.applyAll ⟨some [(100, 5), (100, 3)], none⟩ []).bids ∧
    ((100, 3) : Level) ∉ (TreeBook.applyAll ⟨some [(100, 5), (100, 3)], none⟩ []).bids := by
  decide

/-- Claim C2 (amended): for any initial snapshot whose sides are
rank-sorted (hence duplicate-free) and any sequence of delta batches each
sorted by rank, applying them via the array-merge strategy and via the
tree strategy yields identical bid sides and identical ask sides — equal
as lists, hence in particular identical `(price, size)` sets. -/
theorem claim2_strategies_agree (s : Snapshot) (ds : List Delta)
    (hsb : SortedByRank false (s.b.getD [])) (hsa : SortedByRank true (s.a.getD []))
    (hd : ∀ d ∈ ds, SortedByRank false (d.b.getD []) ∧ SortedByRank true (d.a.getD [])) :
    (MergeBook.applyAll s ds).bids = (TreeBook.applyAll s ds).bids ∧
    (MergeBook.applyAll s ds).asks = (TreeBook.applyAll s ds).asks := by
  refine deltas_agree ds _ _ ?_ ?_ ?_ ?_ hd
  · simp only [MergeBook.processSnapshot, TreeBook.processSnapshot]
    rw [treeSnapshot_eq hsb]
  · simp only [MergeBook.processSnapshot, TreeBook.processSnapshot]
    rw [treeSnapshot_eq hsa]
  · simp only [TreeBook.processSnapshot]
    rw [treeSnapshot_eq hsb]
    exact hsb
  · simp only [TreeBook.processSnapshot]
    rw [treeSnapshot_eq hsa]
    exact hsa

/-- Claim C2 witness: the amended equivalence instantiated on the spec's
worked example (a sorted two-level snapshot and one sorted delta batch
containing a deletion and an insertion). -/
theorem claim2_witness :
    (MergeBook.applyAll ⟨some [(100, 5), (99, 3)], some [(101, 4), (102, 2)]⟩
        [⟨some [(100, 0), (98, 7)], none⟩]).bids
      = (TreeBook.applyAll ⟨some [(100, 5), (99, 3)], some [(101, 4), (102, 2)]⟩
        [⟨some [(100, 0), (98, 7)], none⟩]).bids ∧
    (MergeBook.applyAll ⟨some [(100, 5), (99, 3)], some [(101, 4), (102, 2)]⟩
        [⟨some [(100, 0), (98, 7)], none⟩]).asks
      = (TreeBook.applyAll ⟨some [(100, 5), (99, 3)], some [(101, 4), (102, 2)]⟩
        [⟨some [(100, 0), (98, 7)], none⟩]).asks :=
  claim2_strategies_agree _ _ (by decide) (by decide) (by decide)

/-! ### Claim C3 -/

/-- Claim C3 (confirmed): for current and update sequences both sorted by
rank, the batch merge produces exactly: every update whose size is
positive (inserted where it ranks, including strictly-better-ranked ones),
no update of size 0, and exactly those existing levels whose price no
update names (strictly-better-ranked existing levels and those left when
the batch is exhausted) — an update with a price equal to an existing
level thus overwrites it when its size is positive and deletes it when its
size is 0; and the result is again in rank order. -/
theorem claim3_merge_batch (current updates : List Level) (ascending : Bool)
    (hc : SortedByRank ascending current) (hu : SortedByRank ascending updates) :
    (∀ x : Level, x ∈ mergeSortedUpdates current updates ascending ↔
      (x ∈ updates ∧ 0 < x.2) ∨ (x ∈ current ∧ ∀ v ∈ updates, v.1 ≠ x.1)) ∧
    SortedByRank ascending (mergeSortedUpdates current updates ascending) := by
  constructor
  · intro x
    rw [merge_mem_iff current updates ascending x hc hu]
    constructor
    · rintro (h | h)
      · exact Or.inl ⟨h.1, Nat.pos_of_ne_zero h.2⟩
      · exact Or.inr h
    · rintro (h | h)
      · exact Or.inl ⟨h.1, Nat.pos_iff_ne_zero.mp h.2⟩
      · exact Or.inr h
  · exact merge_sorted _ _ _ hc hu

/-- Claim C3 witness: the characterization instantiated on the spec's
worked bid example at the inserted level `[98, 7]`. -/
theorem claim3_witness :
    ((((98 : Price), (7 : Size)) ∈
        mergeSortedUpdates [(100, 5), (99, 3)] [(100, 0), (98, 7)] false) ↔
      ((((98 : Price), (7 : Size)) ∈ ([(100, 0), (98, 7)] : List Level)) ∧
          0 < (((98 : Price), (7 : Size)) : Level).2) ∨
      ((((98 : Price), (7 : Size)) ∈ ([(100, 5), (99, 3)] : List Level)) ∧
          ∀ v ∈ ([(100, 0), (98, 7)] : List Level), v.1 ≠ (98 : Price))) ∧
    SortedByRank false (mergeSortedUpdates [(100, 5), (99, 3)] [(100, 0), (98, 7)] false) :=
  ⟨(claim3_merge_batch [(100, 5), (99, 3)] [(100, 0), (98, 7)] false
      (by decide) (by decide)).1 (98, 7),
   (claim3_merge_batch [(100, 5), (99, 3)] [(100, 0), (98, 7)] false
      (by decide) (by decide)).2⟩

/-! ### Claim C4 -/

/-- Claim C4, counterexample to the claim as stated: after
`initialize(["X"])` and no snapshot at all, `processDelta` does not fail —
it returns successfully and commits the delta's level to the empty bid
side, so there is no `NotSynchronized` error and the state does change. -/
theorem claim4_counterexample :
    MergeStore.processDelta ( MergeStore.initialize ⟨[]⟩ ["X"]) "X" ⟨some [(100, 5)], none⟩
      = .ok ⟨[("X", ⟨[(100, 5)], []⟩)]⟩ ∧
    MergeBook.mk [(100, 5)] [] ≠ MergeBook.mk [] [] := by
  constructor
  · simp [ MergeStore.initialize, MergeStore.processDelta, lookupBook, setBook,
      MergeBook.processDelta, mergeSortedUpdates]
  · decide

/-- Claim C4 (amended): neither source file has a `NotSynchronized` error
or a synchronized flag.  For an initialized instrument that has received
no snapshot (both sides still empty), `applyDelta` is not rejected: with
at least one nonempty update list the array-merge store succeeds and
commits the parsed updates onto the empty sides (levels of size 0 dropped,
the rest kept), and the tree store succeeds as well; when both lists are
absent or empty the call is a silent no-op. -/
theorem claim4_delta_before_snapshot (store : MergeStore) (tstore : TreeStore)
    (pair : String) (d : Delta)
    (h : lookupBook store.books pair = some ⟨[], []⟩)
    (ht : lookupBook tstore.books pair = some ⟨[], []⟩) :
    (∀ e : JsError, store.processDelta pair d ≠ .error e) ∧
    (∀ e : JsError, tstore.processDelta pair d ≠ .error e) ∧
    (¬(d.b.getD [] = [] ∧ d.a.getD [] = []) →
      store.processDelta pair d = .ok ⟨setBook store.books pair
        ⟨(d.b.getD []).filter fun u => decide (u.2 ≠ 0),
         (d.a.getD []).filter fun u => decide (u.2 ≠ 0)⟩⟩) ∧
    ((d.b.getD [] = [] ∧ d.a.getD [] = []) → store.processDelta pair d = .ok store) := by
  have hside : ∀ (us : List Level) (ascending : Bool),
      (if 0 < us.length then mergeSortedUpdates [] us ascending else []) =
        us.filter fun u => decide (u.2 ≠ 0) := by
    intro us ascending
    by_cases h9 : 0 < us.length
    · rw [if_pos h9, mergeSortedUpdates]
    · rw [if_neg h9]
      have hnil : us = [] := List.length_eq_zero.mp (Nat.eq_zero_of_not_pos h9)
      rw [hnil]
      rfl
  have hbook : MergeBook.processDelta ⟨[], []⟩ d =
      ⟨(d.b.getD []).filter fun u => decide (u.2 ≠ 0),
       (d.a.getD []).filter fun u => decide (u.2 ≠ 0)⟩ := by
    simp only [MergeBook.processDelta, MergeBook.mk.injEq]
    exact ⟨hside _ _, hside _ _⟩
  refine ⟨?_, ?_, ?_, ?_⟩
  · intro e
    rw [MergeStore.processDelta]
    by_cases hg : d.b.getD [] = [] ∧ d.a.getD [] = []
    · rw [if_pos hg]
      simp
    · rw [if_neg hg, h]
      simp
  · intro e
    rw [TreeStore.processDelta, ht]
    simp
  · intro hg
    rw [MergeStore.processDelta, if_neg hg, h]
    simp [hbook]
  · intro hg
    rw [MergeStore.processDelta, if_pos hg]

/-- Claim C4 witness: the amended behaviour at a concrete
just-initialized store and a two-level delta (one insertion, one size-0
entry that is dropped). -/
theorem claim4_witness :
    MergeStore.processDelta ⟨[("X", ⟨[], []⟩)]⟩ "X" ⟨some [(100, 5), (99, 0)], none⟩
        ≠ .error .typeError ∧
    MergeStore.processDelta ⟨[("X", ⟨[], []⟩)]⟩ "X" ⟨some [(100, 5), (99, 0)], none⟩
      = .ok ⟨setBook [("X", ⟨[], []⟩)] "X"
          ⟨([(100, 5), (99, 0)] : List Level).filter fun u => decide (u.2 ≠ 0),
           ([] : List Level).filter fun u => decide (u.2 ≠ 0)⟩⟩ := by
  have h := claim4_delta_before_snapshot ⟨[("X", ⟨[], []⟩)]⟩ ⟨[("X", ⟨[], []⟩)]⟩ "X"
    ⟨some [(100, 5), (99, 0)], none⟩ (by decide) (by decide)
  exact ⟨h.1 JsError.typeError, h.2.2.1 (by decide)⟩

/-! ### Claim C5 -/

/-- Claim C5, counterexample to the claim as stated: the array-merge
strategy does not sort; the bid list `[[99, 1], [100, 2]]` is stored in
input order, which is not sorted by bid rank, so the stored side cannot
equal the parsed input sorted by rank (and the prior book content is
gone). -/
theorem claim5_counterexample :
    (MergeBook.processSnapshot ⟨[(1, 1)], [(2, 2)]⟩ ⟨some [(99, 1), (100, 2)], none⟩).bids
        = [(99, 1), (100, 2)] ∧
    ¬ SortedByRank false [((99 : Price), (1 : Size)), (100, 2)] :=
  ⟨rfl, by decide⟩

/-- Claim C5 (amended): for snapshot input whose sides are already sorted
by rank (the feed contract), both strategies replace each side wholesale
with exactly the parsed input levels, whatever the book held before — no
prior level survives — and a side whose input list is absent becomes
empty.  (For unsorted input the array strategy keeps the raw input order
instead of rank order.) -/
theorem claim5_snapshot_replace (mbook : MergeBook) (tbook : TreeBook) (s : Snapshot)
    (hb : SortedByRank false (s.b.getD [])) (ha : SortedByRank true (s.a.getD [])) :
    mbook.processSnapshot s = ⟨s.b.getD [], s.a.getD []⟩ ∧
    tbook.processSnapshot s = ⟨s.b.getD [], s.a.getD []⟩ := by
  refine ⟨rfl, ?_⟩
  simp only [TreeBook.processSnapshot]
  rw [treeSnapshot_eq hb, treeSnapshot_eq ha]

/-- Claim C5 witness: a sorted snapshot replacing a nonempty prior book in
both strategies. -/
theorem claim5_witness :
    MergeBook.processSnapshot ⟨[(1, 1)], []⟩ ⟨some [(100, 5), (99, 3)], none⟩
        = ⟨[(100, 5), (99, 3)], []⟩ ∧
    TreeBook.processSnapshot ⟨[(1, 1)], []⟩ ⟨some [(100, 5), (99, 3)], none⟩
        = ⟨[(100, 5), (99, 3)], []⟩ :=
  claim5_snapshot_replace ⟨[(1, 1)], []⟩ ⟨[(1, 1)], []⟩ ⟨some [(100, 5), (99, 3)], none⟩
    (by decide) (by decide)

/-! ### Claim C6 -/

/-- Claim C6 (confirmed): on a side satisfying the book invariant (rank
sorted), an update of size 0 at price `p` removes exactly the entry at
`p` — the result is the side with every entry of price `p` filtered out —
in both strategies; when no entry has price `p` the update is a no-op (the
side returned unchanged, no error value involved). -/
theorem claim6_size_zero_delete (l : List Level) (p : Price) (ascending : Bool)
    (hl : SortedByRank ascending l) :
    mergeSortedUpdates l [(p, 0)] ascending = l.filter (fun x => decide (x.1 ≠ p)) ∧
    treeUpdateOne l (p, 0) ascending = l.filter (fun x => decide (x.1 ≠ p)) ∧
    ((∀ x ∈ l, x.1 ≠ p) →
      mergeSortedUpdates l [(p, 0)] ascending = l ∧
      treeUpdateOne l (p, 0) ascending = l) := by
  have hu : SortedByRank ascending [(p, 0)] := by simp
  have htree : treeUpdateOne l (p, 0) ascending = l.filter fun x => decide (x.1 ≠ p) := by
    rw [treeUpdateOne, if_pos (show ((p, 0) : Level).2 = 0 from rfl)]
    exact eraseByPrice_eq_filter (SortedByRank.keys_ne hl)
  have hmerge : mergeSortedUpdates l [(p, 0)] ascending
      = l.filter fun x => decide (x.1 ≠ p) := by
    rw [merge_eq_treeFold hl hu, List.foldl_cons, List.foldl_nil]
    exact htree
  refine ⟨hmerge, htree, fun hnone => ?_⟩
  have hfl : l.filter (fun x => decide (x.1 ≠ p)) = l := by
    rw [List.filter_eq_self]
    intro a ha
    simpa using hnone a ha
  exact ⟨by rw [hmerge, hfl], by rw [htree, hfl]⟩

/-- Claim C6 witness: deleting the present price 101 from a two-level ask
side, and the no-op clause checked on the same side for the absent
price. -/
theorem claim6_witness :
    mergeSortedUpdates [(101, 4), (102, 2)] [(101, 0)] true
        = ([(101, 4), (102, 2)] : List Level).filter (fun x => decide (x.1 ≠ (101 : Price))) ∧
    treeUpdateOne [(101, 4), (102, 2)] (101, 0) true
        = ([(101, 4), (102, 2)] : List Level).filter (fun x => decide (x.1 ≠ (101 : Price))) ∧
    ((∀ x ∈ ([(101, 4), (102, 2)] : List Level), x.1 ≠ (101 : Price)) →
      mergeSortedUpdates [(101, 4), (102, 2)] [(101, 0)] true = [(101, 4), (102, 2)] ∧
      treeUpdateOne [(101, 4), (102, 2)] (101, 0) true = [(101, 4), (102, 2)]) :=
  claim6_size_zero_delete [(101, 4), (102, 2)] 101 true (by decide)

/-! ### Claim C7 -/

/-- Claim C7, counterexample to the claim as stated: a snapshot for an
instrument never passed to `initialize` does not produce an explicit
`UnknownInstrument` failure — the operation ends in the uncaught
`TypeError` of reading a property of `undefined` (`JsError.typeError` in
this model), i.e. exactly the crash-on-undefined-lookup the claim says
never happens. -/
theorem claim7_counterexample :
    MergeStore.processSnapshot ⟨[]⟩ "ETHUSDT" ⟨some [(100, 5)], none⟩
      = .error .typeError := rfl

/-- Claim C7 (amended): neither source file has an `UnknownInstrument`
error.  For an identifier never passed to `initialize`, snapshot and
depth-query calls crash with the `TypeError` of an undefined lookup in
both strategies.  A delta call in the tree file crashes that way for
every delta (`this.stats.bookSize = orderBook.bids.size` dereferences the
book unconditionally); in the merge file it crashes when at least one
update list is nonempty and is silently ignored (no error, store
unchanged) when both lists are absent or empty, because there the guards
run before the book is ever dereferenced. -/
theorem claim7_unknown_instrument (mstore : MergeStore) (tstore : TreeStore)
    (pair : String) (s : Snapshot) (d : Delta) (k : Nat)
    (hm : lookupBook mstore.books pair = none)
    (ht : lookupBook tstore.books pair = none) :
    mstore.processSnapshot pair s = .error .typeError ∧
    mstore.getOrderBook pair k = .error .typeError ∧
    tstore.processSnapshot pair s = .error .typeError ∧
    tstore.getOrderBook pair k = .error .typeError ∧
    tstore.processDelta pair d = .error .typeError ∧
    (¬(d.b.getD [] = [] ∧ d.a.getD [] = []) →
      mstore.processDelta pair d = .error .typeError) ∧
    ((d.b.getD [] = [] ∧ d.a.getD [] = []) →
      mstore.processDelta pair d = .ok mstore) := by
  refine ⟨?_, ?_, ?_, ?_, ?_, ?_, ?_⟩
  · rw [MergeStore.processSnapshot, hm]
  · rw [MergeStore.getOrderBook, hm]
  · rw [TreeStore.processSnapshot, ht]
  · rw [TreeStore.getOrderBook, ht]
  · rw [TreeStore.processDelta, ht]
  · intro hg
    rw [MergeStore.processDelta, if_neg hg, hm]
  · intro hg
    rw [MergeStore.processDelta, if_pos hg]

/-- Claim C7 witness: the amended behaviour at a concrete empty store and
unknown identifier, including the tree file's crash on an all-empty delta
and the merge file's silent no-op on the same delta. -/
theorem claim7_witness :
    MergeStore.processSnapshot ⟨[]⟩ "X" ⟨none, none⟩ = .error .typeError ∧
    MergeStore.getOrderBook ⟨[]⟩ "X" 200 = .error .typeError ∧
    TreeStore.processSnapshot ⟨[]⟩ "X" ⟨none, none⟩ = .error .typeError ∧
    TreeStore.getOrderBook ⟨[]⟩ "X" 200 = .error .typeError ∧
    TreeStore.processDelta ⟨[]⟩ "X" ⟨none, none⟩ = .error .typeError ∧
    MergeStore.processDelta ⟨[]⟩ "X" ⟨none, none⟩ = .ok ⟨[]⟩ ∧
    MergeStore.processDelta ⟨[]⟩ "X" ⟨some [(100, 5)], none⟩ = .error .typeError := by
  have h1 := claim7_unknown_instrument ⟨[]⟩ ⟨[]⟩ "X" ⟨none, none⟩ ⟨none, none⟩ 200 rfl rfl
  have h2 := claim7_unknown_instrument ⟨[]⟩ ⟨[]⟩ "X" ⟨none, none⟩ ⟨some [(100, 5)], none⟩ 200
    rfl rfl
  exact ⟨h1.1, h1.2.1, h1.2.2.1, h1.2.2.2.1, h1.2.2.2.2.1,
    h1.2.2.2.2.2.2 (by decide), h2.2.2.2.2.2.1 (by decide)⟩

/-! ### Claim C8 -/

/-- Claim C8 (confirmed): applying the same snapshot twice in a row
yields exactly the same book state as applying it once, in both
strategies — each `processSnapshot` replaces both sides by a function of
the snapshot alone, so the second application reproduces the first's
result. -/
theorem claim8_snapshot_idempotent (mbook : MergeBook) (tbook : TreeBook) (s : Snapshot) :
    (mbook.processSnapshot s).processSnapshot s = mbook.processSnapshot s ∧
    (tbook.processSnapshot s).processSnapshot s = tbook.processSnapshot s :=
  ⟨rfl, rfl⟩

/-! ### Claim C9 -/

/-- Claim C9 (confirmed): for an initialized instrument, the depth query
returns the first `k` levels of each side (best-first: a rank-sorted
side yields a rank-sorted result, taken from the front, i.e. from the
best price), hence never more than `k` entries per side, and fewer than
`k` only when the side holds fewer than `k` levels — in both
strategies. -/
theorem claim9_depth_bound (mstore : MergeStore) (tstore : TreeStore) (pair : String)
    (k : Nat) (mbook : MergeBook) (tbook : TreeBook)
    (hm : lookupBook mstore.books pair = some mbook)
    (ht : lookupBook tstore.books pair = some tbook) :
    mstore.getOrderBook pair k = .ok (mbook.bids.take k, mbook.asks.take k) ∧
    tstore.getOrderBook pair k = .ok (tbook.bids.take k, tbook.asks.take k) ∧
    (mbook.bids.take k).length ≤ k ∧ (mbook.asks.take k).length ≤ k ∧
    (tbook.bids.take k).length ≤ k ∧ (tbook.asks.take k).length ≤ k ∧
    ((mbook.bids.take k).length < k → mbook.bids.length < k) ∧
    ((mbook.asks.take k).length < k → mbook.asks.length < k) ∧
    ((tbook.bids.take k).length < k → tbook.bids.length < k) ∧
    ((tbook.asks.take k).length < k → tbook.asks.length < k) ∧
    (SortedByRank false mbook.bids → SortedByRank false (mbook.bids.take k)) ∧
    (SortedByRank true mbook.asks → SortedByRank true (mbook.asks.take k)) ∧
    (SortedByRank false tbook.bids → SortedByRank false (tbook.bids.take k)) ∧
    (SortedByRank true tbook.asks → SortedByRank true (tbook.asks.take k)) := by
  have hlen : ∀ l : List Level, (l.take k).length ≤ k := by
    intro l
    rw [List.length_take]
    exact min_le_left _ _
  have hlt : ∀ l : List Level, (l.take k).length < k → l.length < k := by
    intro l
    rw [List.length_take]
    omega
  have hsorted : ∀ (ascending : Bool) (l : List Level),
      SortedByRank ascending l → SortedByRank ascending (l.take k) := by
    intro ascending l hs
    exact hs.sublist (List.take_sublist k l)
  refine ⟨?_, ?_, hlen _, hlen _, hlen _, hlen _, hlt _, hlt _, hlt _, hlt _,
    hsorted _ _, hsorted _ _, hsorted _ _, hsorted _ _⟩
  · rw [MergeStore.getOrderBook, hm]
  · rw [TreeStore.getOrderBook, ht]

/-- Claim C9 witness: depth query on an initialized one-level book. -/
theorem claim9_witness :
    MergeStore.getOrderBook ⟨[("X", ⟨[(100, 5)], []⟩)]⟩ "X" 200
        = .ok (([(100, 5)] : List Level).take 200, ([] : List Level).take 200) ∧
    (([(100, 5)] : List Level).take 200).length ≤ 200 := by
  have h := claim9_depth_bound ⟨[("X", ⟨[(100, 5)], []⟩)]⟩ ⟨[("X", ⟨[], []⟩)]⟩ "X" 200
    ⟨[(100, 5)], []⟩ ⟨[], []⟩ (by decide) (by decide)
  exact ⟨h.1, h.2.2.1⟩

/-! ### Claim C10 -/

/-- Claim C10 (confirmed): a delta changes the bid side only according to
its bid list and the ask side only according to its ask list — each
resulting side is the same whatever the other update list is — and a
delta whose bid (resp. ask) list is absent or empty leaves that side
completely unchanged, in both strategies. -/
theorem claim10_frame (mbook : MergeBook) (tbook : TreeBook) (d : Delta) :
    (d.b.getD [] = [] →
      (mbook.processDelta d).bids = mbook.bids ∧ (tbook.processDelta d).bids = tbook.bids) ∧
    (d.a.getD [] = [] →
      (mbook.processDelta d).asks = mbook.asks ∧ (tbook.processDelta d).asks = tbook.asks) ∧
    (mbook.processDelta d).bids = (mbook.processDelta ⟨d.b, none⟩).bids ∧
    (mbook.processDelta d).asks = (mbook.processDelta ⟨none, d.a⟩).asks ∧
    (tbook.processDelta d).bids = (tbook.processDelta ⟨d.b, none⟩).bids ∧
    (tbook.processDelta d).asks = (tbook.processDelta ⟨none, d.a⟩).asks := by
  refine ⟨?_, ?_, rfl, rfl, rfl, rfl⟩
  · intro h
    constructor
    · simp only [MergeBook.processDelta]
      rw [h]
      simp
    · simp only [TreeBook.processDelta]
      rw [h]
      simp
  · intro h
    constructor
    · simp only [MergeBook.processDelta]
      rw [h]
      simp
    · simp only [TreeBook.processDelta]
      rw [h]
      simp

/-- Claim C10 witness: a delta with only an ask list leaves the bid side
of a concrete book untouched in both strategies. -/
theorem claim10_witness :
    (MergeBook.processDelta ⟨[(100, 5)], [(101, 4)]⟩ ⟨none, some [(101, 9)]⟩).bids
        = [(100, 5)] ∧
    (TreeBook.processDelta ⟨[(100, 5)], [(101, 4)]⟩ ⟨none, some [(101, 9)]⟩).bids
        = [(100, 5)] := by
  have h := claim10_frame ⟨[(100, 5)], [(101, 4)]⟩ ⟨[(100, 5)], [(101, 4)]⟩
    ⟨none, some [(101, 9)]⟩
  exact h.1 rfl

end OrderBook
